import Mathlib

/-!
Verification development for the docx redlining engine (`adeu`): a shallow
embedding of `src/adeu/redline/mapper.py`, `src/adeu/redline/engine.py` and
`src/adeu/diff.py`, together with theorems settling the specification claims.

Modelling conventions:
* Python strings are `List Char` (Python `str` is a sequence of code points,
  as is the character list of a Lean string).
* A `w:r` element is a `Run`: run properties (`rPr`, an abstract structural
  value compared only for equality) plus its `w:t` text leaves.
* A document is the ordered list of paragraphs that
  `DocumentMapper._build_map` iterates over (body paragraphs followed by
  table-cell paragraphs; the flattened list is what the mapper sees).
* In-place XML mutation becomes explicit document updating: a run object in
  Python is identified here by its (paragraph index, run index) position,
  and the index shift caused by inserting a split-off sibling is applied
  where Python's object identity made it implicit.
-/

abbrev Str := List Char

/-- The two-character paragraph separator `"\n\n"` that `_build_map` appends
to the flat text after each paragraph (mapper.py line 69). -/
def sepStr : Str := ['\n', '\n']

/-- Python `str.strip()`: remove leading and trailing whitespace. -/
def stripChars (s : Str) : Str :=
  ((s.dropWhile Char.isWhitespace).reverse.dropWhile Char.isWhitespace).reverse

/-- The guard `text.strip() != text` used both by the mapper
(mapper.py line 151) and by python-docx's `CT_R.add_t`
(`len(text.strip()) < len(text)`, equivalent since stripping only removes
characters) to decide whether `xml:space="preserve"` must be set. -/
def needsPreserve (s : Str) : Bool := decide (stripChars s ≠ s)

/-- A `w:t` text leaf: its character content and whether it carries the
`xml:space="preserve"` attribute. -/
structure TextLeaf where
  text : Str
  preserve : Bool
deriving DecidableEq, Inhabited

/-- A `w:r` run element: its `w:rPr` run properties (abstract structural
value, `none` when the element has no `rPr` child) and its `w:t` leaves. -/
structure Run where
  rPr : Option (List String)
  leaves : List TextLeaf
deriving DecidableEq, Inhabited

/-- python-docx `Run.text` getter: concatenation of the `w:t` leaves. -/
def Run.text (r : Run) : Str := (r.leaves.map TextLeaf.text).flatten

/-- python-docx `run.text = t` setter (`CT_R.text`): clears all content
except `rPr` and appends a single `w:t` holding `t`, with
`xml:space="preserve"` when `t.strip() != t` (`CT_R.add_t`). -/
def Run.setText (r : Run) (t : Str) : Run :=
  { r with leaves := [⟨t, needsPreserve t⟩] }

/-- `DocumentMapper._split_run_at_index` (mapper.py lines 129-163), as a pure
function on the run value.  The left half is the original element with its
text replaced by the prefix; the right half is a deep copy of the (already
truncated) element with the `w:t` leaves removed and a fresh `w:t` holding
the suffix, `xml:space="preserve"` set when the suffix differs from its
stripped form.  Insertion of the right half into the tree is modelled
separately by `splitRunList` / `docSplitRun`. -/
def splitRunAtIndex (r : Run) (i : Nat) : Run × Run :=
  let t := r.text
  (r.setText (t.take i), { r with leaves := [⟨t.drop i, needsPreserve (t.drop i)⟩] })

/-- Replace the element at index `n` by `f` applied to it (identity when out
of range); models in-place mutation of one child. -/
def updateNth {α : Type} : List α → Nat → (α → α) → List α
  | [], _, _ => []
  | a :: t, 0, f => f a :: t
  | a :: t, n + 1, f => a :: updateNth t n f

/-- A paragraph: its ordered list of runs. -/
abbrev Para := List Run

/-- The document as the mapper sees it: the flattened paragraph list. -/
abbrev Doc := List Para

/-- The tree effect of `_split_run_at_index` on the run at position `r` of a
paragraph: the run is replaced by its left half with the right half inserted
immediately after it (mapper.py lines 155-158). -/
def splitRunList (runs : Para) (r i : Nat) : Para :=
  match runs, r with
  | [], _ => []
  | x :: t, 0 => (splitRunAtIndex x i).1 :: (splitRunAtIndex x i).2 :: t
  | x :: t, n + 1 => x :: splitRunList t n i

/-- Split the run at position (`p`, `r`) of the document at character `i`. -/
def docSplitRun (doc : Doc) (p r i : Nat) : Doc :=
  updateNth doc p (fun runs => splitRunList runs r i)

/-- `TextSpan` (mapper.py lines 14-20).  `run` holds the run value the span
was built from (Python stores the object reference); `p`, `r` record the
run's position so that tree mutation can be expressed. -/
structure Span where
  start : Nat
  end_ : Nat
  text : Str
  run : Run
  p : Nat
  r : Nat
deriving DecidableEq, Inhabited

/-- The per-paragraph part of `_build_map` (mapper.py lines 50-65): walk the
runs, skip empty ones, emit a span per non-empty run and accumulate the flat
text.  `pIdx`/`rIdx` are the paragraph index and the index of the first run
in `runs` within its paragraph; `off` is the running flat offset. -/
def spansOfRuns (pIdx : Nat) : List Run → Nat → Nat → List Span × Str
  | [], _, _ => ([], [])
  | run :: rest, rIdx, off =>
    let t := run.text
    if t.length = 0 then spansOfRuns pIdx rest (rIdx + 1) off
    else
      let sr := spansOfRuns pIdx rest (rIdx + 1) (off + t.length)
      (⟨off, off + t.length, t, run, pIdx, rIdx⟩ :: sr.1, t ++ sr.2)

/-- `_build_map` (mapper.py lines 34-70): spans and flat text for the
paragraph list starting at paragraph index `pIdx` and flat offset `off`.
After every paragraph (including the last) the separator `"\n\n"` is
appended and the offset advanced by 2 (lines 67-70). -/
def buildMapAux (pIdx off : Nat) : Doc → List Span × Str
  | [] => ([], [])
  | p :: ps =>
    let sp := spansOfRuns pIdx p 0 off
    let rest := buildMapAux (pIdx + 1) (off + sp.2.length + 2) ps
    (sp.1 ++ rest.1, sp.2 ++ sepStr ++ rest.2)

/-- The mapper's `(self.spans, self.full_text)` after `_build_map`. -/
def buildMap (doc : Doc) : List Span × Str := buildMapAux 0 0 doc

/-- Python `str.find`, auxiliary: smallest index `≥ i` at which `tgt` occurs
as a prefix of the remaining haystack. -/
def strFindAux (tgt : Str) : Str → Nat → Option Nat
  | [], i => if tgt = [] then some i else none
  | c :: rest, i =>
    if (c :: rest).take tgt.length = tgt then some i
    else strFindAux tgt rest (i + 1)

/-- Python `hay.find(tgt)`: index of the first occurrence, `none` for -1. -/
def strFind (hay tgt : Str) : Option Nat := strFindAux tgt hay 0

/-- The filter condition of mapper.py lines 89-91:
`s.end > start_idx and s.start < end_idx`. -/
def overlapB (startIdx endIdx : Nat) (s : Span) : Bool :=
  decide (startIdx < s.end_) && decide (s.start < endIdx)

/-- `affected_spans` (mapper.py lines 89-91). -/
def affectedSpans (spans : List Span) (startIdx endIdx : Nat) : List Span :=
  spans.filter (overlapB startIdx endIdx)

/-- The boundary-handling body of `find_target_runs` (mapper.py lines
96-127), reached when the match was found and `affected_spans` is
non-empty.  `working_runs[0] = right_run` and `working_runs[-1] = left_run`
become `updateNth` at the first and last positions; the run mutated by the
right-boundary split lives at `(last.p, last.r)` shifted by one when the
left-boundary split inserted a sibling before it in the same paragraph
(which is also the single-span case, where `working_runs[-1]` is the
freshly inserted right half, `len(last_run.text)` then being the length of
that suffix). -/
def resolveAffected (doc : Doc) (startIdx endIdx : Nat)
    (first : Span) (restAff : List Span) : Doc × List Run :=
  let aff := first :: restAff
  let last := aff.getLast (List.cons_ne_nil _ _)
  let working := aff.map Span.run
  let localStart := startIdx - first.start
  let doc1 :=
    if 0 < localStart then docSplitRun doc first.p first.r localStart else doc
  let working1 :=
    if 0 < localStart then
      updateNth working 0 (fun _ => (splitRunAtIndex first.run localStart).2)
    else working
  if endIdx < last.end_ then
    let lastRun := working1.getLastD default
    let splitPoint := lastRun.text.length - (last.end_ - endIdx)
    let lastLoc : Nat × Nat :=
      if 0 < localStart ∧ last.p = first.p then (last.p, last.r + 1)
      else (last.p, last.r)
    (docSplitRun doc1 lastLoc.1 lastLoc.2 splitPoint,
     updateNth working1 (working1.length - 1)
       (fun _ => (splitRunAtIndex lastRun splitPoint).1))
  else (doc1, working1)

/-- `DocumentMapper.find_target_runs` (mapper.py lines 72-127), returning
the updated document (Python mutates `self.doc` and rebuilds the map) and
the returned run list: locate the first occurrence of the target in the
flat view, filter the overlapping spans, return `[]` when the target is
absent or no span overlaps, and otherwise split at the boundaries via
`resolveAffected`. -/
def findTargetRuns (doc : Doc) (target : Str) : Doc × List Run :=
  let m := buildMap doc
  match strFind m.2 target with
  | none => (doc, [])
  | some startIdx =>
    let endIdx := startIdx + target.length
    match affectedSpans m.1 startIdx endIdx with
    | [] => (doc, [])
    | first :: restAff => resolveAffected doc startIdx endIdx first restAff

/-- Modelled from the spec: the external text extractor
(`adeu.ingest.extract_text_from_stream`, not part of the core sources) is a
pure function producing "run text in document order, `"\n\n"` between
paragraphs" — i.e. the paragraph texts joined by the separator, which is
also what the mapper's own comment (mapper.py line 68, "ingest.py joins
with \n\n") says the flat view must match. -/
def extract (doc : Doc) : Str :=
  (((doc.map (fun runs => (runs.map Run.text).flatten)).intersperse sepStr)).flatten

/-! ## Edits and the diff compiler (`src/adeu/models.py`, `src/adeu/diff.py`) -/

/-- `EditOperationType` (models.py lines 5-8). -/
inductive EditOperationType
  | INSERTION
  | DELETION
  | MODIFICATION
deriving DecidableEq, Inhabited

/-- `ComplianceEdit` as constructed and consumed by diff.py and engine.py
(the class itself is referenced from `adeu.models`; its fields are exactly
those used at every construction and access site:
`operation`, `target_text_to_change_or_anchor`, `proposed_new_text`,
`thought_process`). -/
structure ComplianceEdit where
  operation : EditOperationType
  target_text_to_change_or_anchor : Str
  proposed_new_text : Option Str
  thought_process : String
deriving DecidableEq, Inhabited

/-- The merged edit built by `_merge_diffs` (diff.py lines 106-111) from an
adjacent `DELETION`, `INSERTION` pair. -/
def mergedOf (cur nxt : ComplianceEdit) : ComplianceEdit :=
  { operation := EditOperationType.MODIFICATION
    target_text_to_change_or_anchor := cur.target_text_to_change_or_anchor
    proposed_new_text := nxt.proposed_new_text
    thought_process := "Diff: Replacement" }

/-- The `while i < len(edits)` loop of `_merge_diffs` (diff.py lines 89-118),
indexed exactly as in the source: look at `edits[i]` and, when it exists,
`edits[i+1]`; fuse a `DELETION` followed by an `INSERTION` and advance by 2,
otherwise keep the current edit and advance by 1. -/
def mergeFrom (edits : List ComplianceEdit) (i : Nat) : List ComplianceEdit :=
  if h : i < edits.length then
    let current := edits.get ⟨i, h⟩
    if h2 : i + 1 < edits.length then
      let nxt := edits.get ⟨i + 1, h2⟩
      if current.operation = EditOperationType.DELETION ∧
          nxt.operation = EditOperationType.INSERTION then
        mergedOf current nxt :: mergeFrom edits (i + 2)
      else
        current :: mergeFrom edits (i + 1)
    else
      current :: mergeFrom edits (i + 1)
  else []
termination_by edits.length - i

/-- `_merge_diffs(edits)` (diff.py lines 84-118). -/
def mergeDiffs (edits : List ComplianceEdit) : List ComplianceEdit :=
  mergeFrom edits 0

/-- The specification's description of the post-pass, written from its own
words for comparison with `mergeDiffs`: "fuses adjacent
`(DELETION(A), INSERTION(anchor, B))` pairs into
`MODIFICATION(target=A, new=B)`", leaving every other edit and the relative
order unchanged. -/
def mergeSpec : List ComplianceEdit → List ComplianceEdit
  | [] => []
  | [e] => [e]
  | e₁ :: e₂ :: rest =>
    if e₁.operation = EditOperationType.DELETION ∧
        e₂.operation = EditOperationType.INSERTION then
      mergedOf e₁ e₂ :: mergeSpec rest
    else
      e₁ :: mergeSpec (e₂ :: rest)

/-! ## The redline engine (`src/adeu/redline/engine.py`) -/

/-- The length key of the sort in `apply_edits` (engine.py lines 95-99):
`len(x.target_text_to_change_or_anchor)`. -/
def targetLen (e : ComplianceEdit) : Nat :=
  e.target_text_to_change_or_anchor.length

/-- Insert an edit into an already descending-sorted list, after every edit
of greater *or equal* key: the placement Python's stable
`sorted(..., key=len(...), reverse=True)` gives an element relative to the
ones already seen. -/
def insertDesc (e : ComplianceEdit) : List ComplianceEdit → List ComplianceEdit
  | [] => [e]
  | f :: rest =>
    if targetLen f < targetLen e then e :: f :: rest
    else f :: insertDesc e rest

/-- `sorted_edits` of `apply_edits` (engine.py lines 95-99): Python's
`sorted` is a stable sort, so it is modelled by the stable descending
insertion sort (the theorems below pin it down extensionally: descending by
key, a permutation, and order-preserving on equal keys — the properties
that determine `sorted(..., reverse=True)` uniquely). -/
def sortEdits (edits : List ComplianceEdit) : List ComplianceEdit :=
  edits.foldl (fun acc e => insertDesc e acc) []

/-- The engine state relevant to revision bookkeeping (engine.py lines
19-32): `self.current_id` (initialised to 0), `self.author` (hard-coded
`"Adeu AI"`; `__init__` takes no author parameter) and `self.timestamp`.
The document tree and mapper are carried separately where needed. -/
structure EngineState where
  current_id : Nat
  author : String
  timestamp : String
deriving DecidableEq, Inhabited

/-- `RedlineEngine.__init__` (engine.py lines 19-32), restricted to the
revision-bookkeeping state; `ts` stands for the construction-time timestamp
string. -/
def engineInit (ts : String) : EngineState :=
  { current_id := 0, author := "Adeu AI", timestamp := ts }

/-- `_get_next_id` (engine.py lines 34-36): increment `current_id` and
return it (the Python code returns `str(self.current_id)`; decimal
rendering of naturals is injective, so the id is modelled as the natural
number itself). -/
def getNextId (st : EngineState) : Nat × EngineState :=
  (st.current_id + 1, { st with current_id := st.current_id + 1 })

/-- The attributes `_create_track_change_tag` puts on a wrapper
(engine.py lines 38-43): fresh id, `author or self.author`, timestamp. -/
structure RevisionTag where
  id : Nat
  author : String
  date : String
deriving DecidableEq, Inhabited

/-- `_create_track_change_tag(tag_name, author)` (engine.py lines 38-43);
`authorArg` is Python's `author` parameter, whose default is `""` and which
falls back to `self.author` when falsy. -/
def createTrackChangeTag (st : EngineState) (authorArg : String) :
    RevisionTag × EngineState :=
  let idSt := getNextId st
  ({ id := idSt.1
     author := if authorArg = "" then st.author else authorArg
     date := st.timestamp }, idSt.2)

/-- Which wrapper element a revision wrapper is. -/
inductive WrapKind
  | ins
  | del
deriving DecidableEq, Inhabited

/-- A revision wrapper as emitted by `track_insert` / `track_delete_run`:
the `w:ins`/`w:del` tag with its attributes, the cloned `rPr` (when the
anchor/deleted run had one), and the single `w:t`/`w:delText` leaf. -/
structure Wrapper where
  kind : WrapKind
  tag : RevisionTag
  rPr : Option (List String)
  leafText : Str
  leafPreserve : Bool
deriving DecidableEq, Inhabited

/-- A wrapper-producing engine call: `track_insert(text, anchor_run)` or
`track_delete_run(run)`. -/
inductive EngineOp
  | trackInsert (text : Str) (anchor : Option Run)
  | trackDeleteRun (run : Run)
deriving DecidableEq, Inhabited

/-- `track_insert` (engine.py lines 50-66) and `track_delete_run`
(engine.py lines 68-83): each creates exactly one tracked-change tag (with
the author argument left at its `""` default), clones the relevant `rPr`
when present, and sets the leaf text with `_set_text_content` (engine.py
lines 45-48: `xml:space="preserve"` iff `text.strip() != text`). -/
def runEngineOp (st : EngineState) : EngineOp → Wrapper × EngineState
  | EngineOp.trackInsert text anchor =>
    let tagSt := createTrackChangeTag st ""
    ({ kind := WrapKind.ins
       tag := tagSt.1
       rPr := match anchor with
         | none => none
         | some a => a.rPr
       leafText := text
       leafPreserve := needsPreserve text }, tagSt.2)
  | EngineOp.trackDeleteRun run =>
    let tagSt := createTrackChangeTag st ""
    ({ kind := WrapKind.del
       tag := tagSt.1
       rPr := run.rPr
       leafText := run.text
       leafPreserve := needsPreserve run.text }, tagSt.2)

/-- A sequence of wrapper-producing engine calls, threading the engine
state; returns the wrappers in creation order. -/
def runEngineOps (st : EngineState) : List EngineOp → List Wrapper × EngineState
  | [] => ([], st)
  | op :: rest =>
    let wSt := runEngineOp st op
    let rec0 := runEngineOps wSt.2 rest
    (wSt.1 :: rec0.1, rec0.2)

/-! ## Derived notions used in the statements and proofs -/

/-- The flat text contributed by one paragraph: its runs' texts
concatenated. -/
def paraFlat (runs : Para) : Str := (runs.map Run.text).flatten

/-- Position `i` of the flat view lies inside span `s`. -/
def inSpan (s : Span) (i : Nat) : Prop := s.start ≤ i ∧ i < s.end_

instance (s : Span) (i : Nat) : Decidable (inSpan s i) := by
  unfold inSpan
  infer_instance

/-- The interval `[a, b)` of the flat view is covered by the span index:
every position of the matched slice belongs to some run's span (i.e. the
match does not touch a paragraph separator, which belongs to no span). -/
def Covered (spans : List Span) (a b : Nat) : Prop :=
  ∀ i, i < b → (i < a ∨ ∃ s ∈ spans, inSpan s i)

instance (spans : List Span) (a b : Nat) : Decidable (Covered spans a b) := by
  unfold Covered
  infer_instance

/-- Document-order relation between spans: `u` ends no later than `v`
starts. -/
def spanLe (u v : Span) : Prop := u.end_ ≤ v.start

/-- The invariant `_build_map` establishes for each span: its width is its
text's length, its text is non-empty, it stores its run's text, and it is
the slice of the flat view between its offsets. -/
def SpanInv (full : Str) (s : Span) : Prop :=
  s.end_ = s.start + s.text.length ∧ s.text ≠ [] ∧ s.run.text = s.text ∧
    (full.drop s.start).take s.text.length = s.text

/-- `Tiles b a l`: the spans of `l` tile the flat view contiguously from a
position at or before `a` (with `a` inside the first span) up to at least
`b` (with `b` inside or at the end of the last span), each span except the
last ending at or before `b`. -/
def Tiles (b : Nat) : Nat → List Span → Prop
  | a, [] => b ≤ a
  | a, s :: rest =>
    s.start ≤ a ∧ a < s.end_ ∧ (rest = [] → b ≤ s.end_) ∧
      (rest ≠ [] → s.end_ ≤ b) ∧ Tiles b s.end_ rest

/-- The texts of a tail block of affected spans as returned by
`find_target_runs`: middle spans contribute their whole text, the last is
cut at flat position `b`. -/
def piecesTexts (b : Nat) : List Span → Str
  | [] => []
  | [s] => s.text.take (b - s.start)
  | s :: rest => s.text ++ piecesTexts b rest

/-- Concatenated text of a run list (what the caller of `find_target_runs`
sees as the matched text). -/
def runsText (runs : List Run) : Str := (runs.map Run.text).flatten

/-- `find_target_runs` resolves nothing: the target is absent from the flat
view, or no span overlaps its first occurrence. -/
def noResolution (doc : Doc) (target : Str) : Bool :=
  match strFind (buildMap doc).2 target with
  | none => true
  | some startIdx =>
    (affectedSpans (buildMap doc).1 startIdx (startIdx + target.length)).isEmpty

/-- A one-leaf run without properties, for concrete documents. -/
def plainRun (s : Str) : Run := ⟨none, [⟨s, false⟩]⟩

/-- Two one-run paragraphs `"a"`, `"b"`: the smallest document with a
paragraph gap. -/
def docAB : Doc := [[plainRun ['a']], [plainRun ['b']]]

/-- Target `"a\n\nb"`, whose first (and only) occurrence in `docAB`'s flat
view crosses the paragraph separator. -/
def targetAB : Str := ['a', '\n', '\n', 'b']

/-- One paragraph holding the single run `"a"`. -/
def docA : Doc := [[plainRun ['a']]]

/-- One paragraph holding the single run `"abc"`. -/
def docABC : Doc := [[plainRun ['a', 'b', 'c']]]

/-! ## Basic lemmas about the list helpers -/

theorem updateNth_length {α : Type} (f : α → α) :
    ∀ (l : List α) (n : Nat), (updateNth l n f).length = l.length
  | [], _ => rfl
  | _ :: t, 0 => rfl
  | a :: t, n + 1 => by simp [updateNth, updateNth_length f t n]

theorem map_updateNth_eq {α β : Type} (g : α → β) (f : α → α)
    (h : ∀ x, g (f x) = g x) :
    ∀ (l : List α) (n : Nat), (updateNth l n f).map g = l.map g
  | [], _ => rfl
  | a :: t, 0 => by simp [updateNth, h a]
  | a :: t, n + 1 => by simp [updateNth, map_updateNth_eq g f h t n]

theorem updateNth_cons_succ {α : Type} (f : α → α) (a : α) (l : List α) (n : Nat) :
    updateNth (a :: l) (n + 1) f = a :: updateNth l n f := rfl

theorem updateNth_cons_zero {α : Type} (f : α → α) (a : α) (l : List α) :
    updateNth (a :: l) 0 f = f a :: l := rfl

/-! ## Lemmas about run splitting -/

theorem setText_text (r : Run) (t : Str) : (r.setText t).text = t := by
  simp [Run.setText, Run.text]

theorem splitRunAtIndex_fst_text (r : Run) (i : Nat) :
    (splitRunAtIndex r i).1.text = r.text.take i := by
  simp [splitRunAtIndex, setText_text]

theorem splitRunAtIndex_snd_text (r : Run) (i : Nat) :
    (splitRunAtIndex r i).2.text = r.text.drop i := by
  simp [splitRunAtIndex, Run.text]

theorem splitRunAtIndex_fst_rPr (r : Run) (i : Nat) :
    (splitRunAtIndex r i).1.rPr = r.rPr := rfl

theorem splitRunAtIndex_snd_rPr (r : Run) (i : Nat) :
    (splitRunAtIndex r i).2.rPr = r.rPr := rfl

theorem splitRunList_paraFlat (i : Nat) :
    ∀ (runs : Para) (r : Nat), paraFlat (splitRunList runs r i) = paraFlat runs
  | [], _ => rfl
  | x :: t, 0 => by
    simp only [splitRunList, paraFlat, List.map_cons, List.flatten_cons,
      splitRunAtIndex_fst_text, splitRunAtIndex_snd_text]
    rw [← List.append_assoc, List.take_append_drop]
  | x :: t, n + 1 => by
    simp only [splitRunList, paraFlat, List.map_cons, List.flatten_cons]
    rw [show ((splitRunList t n i).map Run.text).flatten = paraFlat (splitRunList t n i) from rfl,
      splitRunList_paraFlat i t n]
    rfl

/-! ## The flat text of `_build_map` -/

theorem spansOfRuns_snd (pIdx : Nat) :
    ∀ (runs : List Run) (rIdx off : Nat),
      (spansOfRuns pIdx runs rIdx off).2 = paraFlat runs
  | [], _, _ => rfl
  | run :: rest, rIdx, off => by
    simp only [spansOfRuns]
    by_cases h : run.text.length = 0
    · have ht : run.text = [] := List.length_eq_zero.mp h
      simp [h, spansOfRuns_snd pIdx rest (rIdx + 1) off, paraFlat, ht]
    · simp [h, spansOfRuns_snd pIdx rest (rIdx + 1) (off + run.text.length), paraFlat]

theorem buildMapAux_snd :
    ∀ (ps : Doc) (pIdx off : Nat),
      (buildMapAux pIdx off ps).2 = ((ps.map (fun p => paraFlat p ++ sepStr))).flatten
  | [], _, _ => rfl
  | p :: ps, pIdx, off => by
    simp only [buildMapAux, List.map_cons, List.flatten_cons]
    rw [spansOfRuns_snd, buildMapAux_snd ps]

theorem buildMap_snd (doc : Doc) :
    (buildMap doc).2 = ((doc.map (fun p => paraFlat p ++ sepStr))).flatten :=
  buildMapAux_snd doc 0 0

theorem buildMap_docSplitRun (d : Doc) (p r i : Nat) :
    (buildMap (docSplitRun d p r i)).2 = (buildMap d).2 := by
  rw [buildMap_snd, buildMap_snd, docSplitRun,
    map_updateNth_eq (fun p => paraFlat p ++ sepStr)
      (fun runs => splitRunList runs r i)
      (fun runs => by simp [splitRunList_paraFlat])]

/-- Claim C10: a call to `find_target_runs` leaves the document's flat text
view unchanged — rebuilding the map after the call (including any run
splits it performed) yields a flat view character-for-character equal to
the one before the call. -/
theorem resolveAffected_preserves_flat_view (doc : Doc) (s e : Nat)
    (first : Span) (rest : List Span) :
    (buildMap (resolveAffected doc s e first rest).1).2 = (buildMap doc).2 := by
  simp only [resolveAffected]
  split
  · rw [buildMap_docSplitRun]
    split
    · rw [buildMap_docSplitRun]
    · rfl
  · split
    · rw [buildMap_docSplitRun]
    · rfl

theorem findTargetRuns_preserves_flat_view (doc : Doc) (target : Str) :
    (buildMap (findTargetRuns doc target).1).2 = (buildMap doc).2 := by
  simp only [findTargetRuns]
  split
  · rfl
  · split
    · rfl
    · rw [resolveAffected_preserves_flat_view]

/-- Claim C7: splitting a run at any index between 0 and its text length
yields halves whose concatenated text is the original text, both carrying
the original (hence structurally equal) run properties, and every resulting
text leaf whose content differs from its stripped form carries the
preserve-whitespace attribute. -/
theorem split_run_fidelity (r : Run) (i : Nat) (_h : i ≤ r.text.length) :
    (splitRunAtIndex r i).1.text ++ (splitRunAtIndex r i).2.text = r.text ∧
    (splitRunAtIndex r i).1.rPr = r.rPr ∧ (splitRunAtIndex r i).2.rPr = r.rPr ∧
    ∀ leaf ∈ (splitRunAtIndex r i).1.leaves ++ (splitRunAtIndex r i).2.leaves,
      stripChars leaf.text ≠ leaf.text → leaf.preserve = true := by
  refine ⟨?_, rfl, rfl, ?_⟩
  · rw [splitRunAtIndex_fst_text, splitRunAtIndex_snd_text, List.take_append_drop]
  · intro leaf hm hne
    have hcase :
        leaf = ⟨r.text.take i, needsPreserve (r.text.take i)⟩ ∨
        leaf = ⟨r.text.drop i, needsPreserve (r.text.drop i)⟩ := by
      simpa [splitRunAtIndex, Run.setText] using hm
    rcases hcase with h1 | h1 <;> subst h1 <;> exact decide_eq_true hne

/-- Witness for `split_run_fidelity` at the run `" xy"` split at index 2. -/
theorem split_run_fidelity_witness :
    (splitRunAtIndex (plainRun [' ', 'x', 'y']) 2).1.text ++
        (splitRunAtIndex (plainRun [' ', 'x', 'y']) 2).2.text =
      (plainRun [' ', 'x', 'y']).text ∧
    (splitRunAtIndex (plainRun [' ', 'x', 'y']) 2).1.rPr = (plainRun [' ', 'x', 'y']).rPr ∧
    (splitRunAtIndex (plainRun [' ', 'x', 'y']) 2).2.rPr = (plainRun [' ', 'x', 'y']).rPr ∧
    ∀ leaf ∈ (splitRunAtIndex (plainRun [' ', 'x', 'y']) 2).1.leaves ++
        (splitRunAtIndex (plainRun [' ', 'x', 'y']) 2).2.leaves,
      stripChars leaf.text ≠ leaf.text → leaf.preserve = true :=
  split_run_fidelity (plainRun [' ', 'x', 'y']) 2 (by decide)

/-! ## Revision id and author lemmas (engine.py) -/

theorem runEngineOp_id (st : EngineState) (op : EngineOp) :
    (runEngineOp st op).1.tag.id = st.current_id + 1 ∧
    (runEngineOp st op).2.current_id = st.current_id + 1 := by
  cases op <;> simp [runEngineOp, createTrackChangeTag, getNextId]

theorem runEngineOp_author (st : EngineState) (op : EngineOp) :
    (runEngineOp st op).1.tag.author = st.author ∧
    (runEngineOp st op).2.author = st.author := by
  cases op <;> simp [runEngineOp, createTrackChangeTag, getNextId]

theorem runEngineOps_ids :
    ∀ (ops : List EngineOp) (st : EngineState),
      ((runEngineOps st ops).1.map (fun w => w.tag.id)) =
        List.range' (st.current_id + 1) ops.length
  | [], st => rfl
  | op :: rest, st => by
    simp only [runEngineOps, List.map_cons, List.length_cons, List.range'_succ]
    rw [(runEngineOp_id st op).1, runEngineOps_ids rest (runEngineOp st op).2,
      (runEngineOp_id st op).2]

/-- Claim C6: within one engine lifetime the revision ids placed on the
`w:ins`/`w:del` wrappers are `1, 2, 3, …` in creation order — the k-th
wrapper created carries id k — so all ids in a saved document are pairwise
distinct. -/
theorem revision_ids_distinct (ts : String) (ops : List EngineOp) :
    ((runEngineOps (engineInit ts) ops).1.map (fun w => w.tag.id)) =
      List.range' 1 ops.length ∧
    ((runEngineOps (engineInit ts) ops).1.map (fun w => w.tag.id)).Nodup := by
  have h := runEngineOps_ids ops (engineInit ts)
  simp only [engineInit] at h
  exact ⟨h, h ▸ List.nodup_range' _ _⟩

theorem runEngineOps_author :
    ∀ (ops : List EngineOp) (st : EngineState) (w : Wrapper),
      w ∈ (runEngineOps st ops).1 → w.tag.author = st.author
  | [], _, _, h => by simp [runEngineOps] at h
  | op :: rest, st, w, h => by
    simp only [runEngineOps, List.mem_cons] at h
    rcases h with h | h
    · rw [h]; exact (runEngineOp_author st op).1
    · rw [runEngineOps_author rest (runEngineOp st op).2 w h]
      exact (runEngineOp_author st op).2

/-- C5 (what the code actually does on the engine side): every revision
wrapper emitted by an engine built by `__init__` carries the hard-coded
author `"Adeu AI"` — the construction takes no author argument at all. -/
theorem wrappers_carry_hardcoded_author (ts : String) (ops : List EngineOp)
    (w : Wrapper) (h : w ∈ (runEngineOps (engineInit ts) ops).1) :
    w.tag.author = "Adeu AI" :=
  runEngineOps_author ops (engineInit ts) w h

/-- Witness for `wrappers_carry_hardcoded_author` on a one-call sequence. -/
theorem wrappers_carry_hardcoded_author_witness :
    ((runEngineOps (engineInit "2024-01-01T00:00:00Z")
        [EngineOp.trackInsert ['h', 'i'] none]).1.headD default).tag.author =
      "Adeu AI" :=
  wrappers_carry_hardcoded_author "2024-01-01T00:00:00Z"
    [EngineOp.trackInsert ['h', 'i'] none]
    ((runEngineOps (engineInit "2024-01-01T00:00:00Z")
        [EngineOp.trackInsert ['h', 'i'] none]).1.headD default)
    (by decide)

/-! ## Stable descending sort lemmas (engine.py `sorted`, C8) -/

theorem mem_insertDesc (e x : ComplianceEdit) :
    ∀ l, x ∈ insertDesc e l ↔ x = e ∨ x ∈ l
  | [] => by simp [insertDesc]
  | f :: rest => by
    simp only [insertDesc]
    by_cases h : targetLen f < targetLen e
    · rw [if_pos h]
      simp only [List.mem_cons]
    · rw [if_neg h]
      simp only [List.mem_cons, mem_insertDesc e x rest]
      tauto

theorem insertDesc_sorted (e : ComplianceEdit) :
    ∀ l, List.Pairwise (fun u v => targetLen v ≤ targetLen u) l →
      List.Pairwise (fun u v => targetLen v ≤ targetLen u) (insertDesc e l)
  | [], _ => List.pairwise_singleton _ _
  | f :: rest, h => by
    have h' := List.pairwise_cons.mp h
    simp only [insertDesc]
    by_cases hc : targetLen f < targetLen e
    · rw [if_pos hc, List.pairwise_cons]
      refine ⟨?_, h⟩
      intro x hx
      rcases List.mem_cons.mp hx with rfl | hx
      · exact Nat.le_of_lt hc
      · exact Nat.le_trans (h'.1 x hx) (Nat.le_of_lt hc)
    · rw [if_neg hc, List.pairwise_cons]
      refine ⟨?_, insertDesc_sorted e rest h'.2⟩
      intro x hx
      rcases (mem_insertDesc e x rest).mp hx with rfl | hx
      · exact Nat.le_of_not_lt hc
      · exact h'.1 x hx

theorem insertDesc_perm (e : ComplianceEdit) :
    ∀ l, (insertDesc e l).Perm (e :: l)
  | [] => List.Perm.refl _
  | f :: rest => by
    simp only [insertDesc]
    by_cases hc : targetLen f < targetLen e
    · rw [if_pos hc]
    · rw [if_neg hc]
      exact ((insertDesc_perm e rest).cons f).trans (List.Perm.swap e f rest)

theorem filter_insertDesc_of_ne (n : Nat) (e : ComplianceEdit)
    (hne : targetLen e ≠ n) :
    ∀ l, (insertDesc e l).filter (fun x => targetLen x == n) =
      l.filter (fun x => targetLen x == n)
  | [] => by simp [insertDesc, List.filter_cons, hne]
  | f :: rest => by
    simp only [insertDesc]
    by_cases hc : targetLen f < targetLen e
    · rw [if_pos hc]
      simp [List.filter_cons, hne]
    · rw [if_neg hc]
      simp only [List.filter_cons]
      rw [filter_insertDesc_of_ne n e hne rest]

theorem filter_insertDesc_of_eq (n : Nat) (e : ComplianceEdit)
    (heq : targetLen e = n) :
    ∀ l, List.Pairwise (fun u v => targetLen v ≤ targetLen u) l →
      (insertDesc e l).filter (fun x => targetLen x == n) =
        l.filter (fun x => targetLen x == n) ++ [e]
  | [], _ => by simp [insertDesc, List.filter_cons, heq]
  | f :: rest, h => by
    have h' := List.pairwise_cons.mp h
    simp only [insertDesc]
    by_cases hc : targetLen f < targetLen e
    · rw [if_pos hc]
      have hnone : ∀ x ∈ f :: rest, (targetLen x == n) = false := by
        intro x hx
        rcases List.mem_cons.mp hx with rfl | hx
        · simp only [beq_eq_false_iff_ne, ne_eq]
          omega
        · have := h'.1 x hx
          simp only [beq_eq_false_iff_ne, ne_eq]
          omega
      have hfe : (f :: rest).filter (fun x => targetLen x == n) = [] := by
        rw [List.filter_eq_nil_iff]
        intro x hx
        simp [hnone x hx]
      rw [List.filter_cons]
      simp only [heq, beq_self_eq_true, if_pos]
      rw [hfe]
      simp
    · rw [if_neg hc]
      rw [List.filter_cons, List.filter_cons,
        filter_insertDesc_of_eq n e heq rest h'.2]
      by_cases hf : (targetLen f == n) = true
      · simp [hf]
      · simp [Bool.eq_false_iff.mpr hf]

theorem sortEdits_filter_aux (n : Nat) :
    ∀ (l acc : List ComplianceEdit),
      List.Pairwise (fun u v => targetLen v ≤ targetLen u) acc →
      (l.foldl (fun acc e => insertDesc e acc) acc).filter
          (fun x => targetLen x == n) =
        acc.filter (fun x => targetLen x == n) ++
          l.filter (fun x => targetLen x == n)
  | [], acc, _ => by simp
  | e :: tl, acc, h => by
    simp only [List.foldl_cons]
    rw [sortEdits_filter_aux n tl (insertDesc e acc) (insertDesc_sorted e acc h)]
    by_cases he : targetLen e = n
    · rw [filter_insertDesc_of_eq n e he acc h, List.filter_cons]
      simp [he, List.append_assoc]
    · rw [filter_insertDesc_of_ne n e he acc, List.filter_cons]
      simp [he]

theorem sortEdits_sorted_aux :
    ∀ (l acc : List ComplianceEdit),
      List.Pairwise (fun u v => targetLen v ≤ targetLen u) acc →
      List.Pairwise (fun u v => targetLen v ≤ targetLen u)
        (l.foldl (fun acc e => insertDesc e acc) acc)
  | [], _, h => h
  | e :: tl, acc, h =>
    sortEdits_sorted_aux tl (insertDesc e acc) (insertDesc_sorted e acc h)

theorem sortEdits_perm_aux :
    ∀ (l acc : List ComplianceEdit),
      (l.foldl (fun acc e => insertDesc e acc) acc).Perm (acc ++ l)
  | [], acc => by simp
  | e :: tl, acc => by
    simp only [List.foldl_cons]
    exact ((sortEdits_perm_aux tl (insertDesc e acc)).trans
      (((insertDesc_perm e acc).append_right tl).trans List.perm_middle.symm))

/-- Claim C8: `apply_edits` processes the edits in the order produced by
`sorted(edits, key=len(target), reverse=True)`: descending length of
`target_text`, edits of equal target length keeping their original relative
input order (Python's sort is stable), the whole being a permutation of the
input list. -/
theorem apply_edits_processing_order (edits : List ComplianceEdit) :
    List.Pairwise (fun u v => targetLen v ≤ targetLen u) (sortEdits edits) ∧
    (sortEdits edits).Perm edits ∧
    ∀ n : Nat,
      (sortEdits edits).filter (fun e => targetLen e == n) =
        edits.filter (fun e => targetLen e == n) := by
  refine ⟨sortEdits_sorted_aux edits [] (List.Pairwise.nil), ?_, ?_⟩
  · simpa using sortEdits_perm_aux edits []
  · intro n
    simpa using sortEdits_filter_aux n edits [] (List.Pairwise.nil)

/-! ## The diff post-pass loop (C9) -/

theorem mergeFrom_stop (edits : List ComplianceEdit) (i : Nat)
    (h : edits.length ≤ i) : mergeFrom edits i = [] := by
  rw [mergeFrom]
  simp [Nat.not_lt.mpr h]

theorem mergeFrom_eq_spec_drop :
    ∀ (n : Nat) (edits : List ComplianceEdit) (i : Nat),
      edits.length - i ≤ n → mergeFrom edits i = mergeSpec (edits.drop i)
  | 0, edits, i, h => by
    have hle : edits.length ≤ i := by omega
    rw [mergeFrom_stop edits i hle, List.drop_eq_nil_of_le hle]
    rfl
  | n + 1, edits, i, h => by
    by_cases h1 : i < edits.length
    · have hd : edits.drop i = edits.get ⟨i, h1⟩ :: edits.drop (i + 1) :=
        List.drop_eq_get_cons h1
      rw [mergeFrom]
      rw [dif_pos h1]
      by_cases h2 : i + 1 < edits.length
      · have hd2 : edits.drop (i + 1) =
            edits.get ⟨i + 1, h2⟩ :: edits.drop (i + 2) :=
          List.drop_eq_get_cons h2
        rw [dif_pos h2]
        by_cases hp : (edits.get ⟨i, h1⟩).operation = EditOperationType.DELETION ∧
            (edits.get ⟨i + 1, h2⟩).operation = EditOperationType.INSERTION
        · rw [if_pos hp, hd, hd2]
          simp only [mergeSpec]
          rw [if_pos hp, mergeFrom_eq_spec_drop n edits (i + 2) (by omega)]
        · rw [if_neg hp, hd, hd2]
          simp only [mergeSpec]
          rw [if_neg hp, mergeFrom_eq_spec_drop n edits (i + 1) (by omega), hd2]
      · rw [dif_neg h2]
        have hnil : edits.drop (i + 1) = [] :=
          List.drop_eq_nil_of_le (Nat.le_of_not_lt h2)
        rw [hd, hnil, mergeFrom_stop edits (i + 1) (Nat.le_of_not_lt h2)]
        rfl
    · rw [mergeFrom_stop edits i (Nat.le_of_not_lt h1),
        List.drop_eq_nil_of_le (Nat.le_of_not_lt h1)]
      rfl

/-- Claim C9: the diff compiler's post-pass `_merge_diffs` replaces every
adjacent `DELETION(A)` immediately followed by an `INSERTION(_, B)` by the
single `MODIFICATION(target=A, new=B)` and leaves every other edit and the
relative order unchanged — it computes exactly the recursive fusion
`mergeSpec` written from the specification's words. -/
theorem merge_diffs_fuses_adjacent_pairs (edits : List ComplianceEdit) :
    mergeDiffs edits = mergeSpec edits := by
  have h := mergeFrom_eq_spec_drop edits.length edits 0 (by omega)
  simpa [mergeDiffs] using h

/-- Claim C4 (the divergence, evaluated): on a single-paragraph document
with run text `"a"`, `_build_map` produces the flat view `"a\n\n"` — the
separator is appended after the last paragraph too — while the extractor
contract (separator between successive paragraphs only) yields `"a"`, so
the two differ. -/
theorem mapper_flat_view_vs_extract :
    (buildMap docA).2 = ['a', '\n', '\n'] ∧ extract docA = ['a'] ∧
      (buildMap docA).2 ≠ extract docA := by decide

/-- Counterexample to claim C2: on `docAB` the target `"a\n\nb"` is found
at offset 0, its match interval covers position 1, which lies in no span
(it is inside the paragraph separator), yet `find_target_runs` does not
return the empty sequence — it returns the two runs `"a"` and `"b"`. -/
theorem straddling_match_returned_cx :
    strFind (buildMap docAB).2 targetAB = some 0 ∧
    (¬ ∃ s ∈ (buildMap docAB).1, inSpan s 1) ∧
    (findTargetRuns docAB targetAB).2 = [plainRun ['a'], plainRun ['b']] ∧
    (findTargetRuns docAB targetAB).2 ≠ [] := by decide

theorem resolveAffected_snd_length (doc : Doc) (s e : Nat) (first : Span)
    (rest : List Span) :
    ((resolveAffected doc s e first rest).2).length = rest.length + 1 := by
  simp only [resolveAffected]
  split
  · rw [updateNth_length]
    split
    · rw [updateNth_length]
      simp
    · simp
  · split
    · rw [updateNth_length]
      simp
    · simp

/-- Claim C2 as amended: a match that crosses a paragraph gap is *not*
refused.  `find_target_runs` returns the empty sequence exactly when the
target is absent from the flat view or no span overlaps the match interval
(`noResolution`); whenever at least one run's span overlaps the matched
interval — straddling or not — the returned sequence is non-empty. -/
theorem find_target_runs_empty_iff (doc : Doc) (target : Str) :
    (findTargetRuns doc target).2 = [] ↔ noResolution doc target = true := by
  simp only [findTargetRuns, noResolution]
  cases hf : strFind (buildMap doc).2 target with
  | none => simp
  | some a =>
    change (match affectedSpans (buildMap doc).1 a (a + target.length) with
        | [] => (doc, ([] : List Run))
        | first :: restAff =>
          resolveAffected doc a (a + target.length) first restAff).2 = [] ↔
      ((affectedSpans (buildMap doc).1 a (a + target.length)).isEmpty = true)
    cases haff : affectedSpans (buildMap doc).1 a (a + target.length) with
    | nil => exact iff_of_true rfl rfl
    | cons first rest =>
      change (resolveAffected doc a (a + target.length) first rest).2 = [] ↔
        ((first :: rest).isEmpty = true)
      simp only [List.isEmpty_cons]
      constructor
      · intro hres
        have hlen := resolveAffected_snd_length doc a (a + target.length) first rest
        rw [hres] at hlen
        simp at hlen
      · intro h
        exact absurd h (by simp)

/-! ## `str.find` returns the matched slice (C3 groundwork) -/

theorem strFindAux_found (tgt : Str) :
    ∀ (hay : Str) (j i : Nat), strFindAux tgt hay j = some i →
      j ≤ i ∧ (hay.drop (i - j)).take tgt.length = tgt
  | [], j, i, h => by
    simp only [strFindAux] at h
    by_cases ht : tgt = []
    · rw [if_pos ht] at h
      cases h
      simp [ht]
    · rw [if_neg ht] at h
      cases h
  | c :: rest, j, i, h => by
    simp only [strFindAux] at h
    by_cases hp : (c :: rest).take tgt.length = tgt
    · rw [if_pos hp] at h
      cases h
      simpa using hp
    · rw [if_neg hp] at h
      have ih := strFindAux_found tgt rest (j + 1) i h
      refine ⟨by omega, ?_⟩
      have hstep : (c :: rest).drop (i - j) = rest.drop (i - (j + 1)) := by
        have hij : i - j = (i - (j + 1)) + 1 := by omega
        rw [hij, List.drop_succ_cons]
      rw [hstep]
      exact ih.2

theorem strFind_slice (hay tgt : Str) (i : Nat) (h : strFind hay tgt = some i) :
    (hay.drop i).take tgt.length = tgt := by
  have hp := strFindAux_found tgt hay 0 i h
  simpa using hp.2

/-! ## Slice arithmetic on lists -/

theorem slice_append (l : Str) (x m y : Nat) (h1 : x ≤ m) (h2 : m ≤ y) :
    (l.drop x).take (y - x) =
      (l.drop x).take (m - x) ++ (l.drop m).take (y - m) := by
  have hy : y - x = (m - x) + (y - m) := by omega
  rw [hy, List.take_add]
  have hd : (l.drop x).drop (m - x) = l.drop m := by
    rw [List.drop_drop]
    congr 1
    omega
  rw [hd]

theorem slice_prefix_extend (A B : Str) (d L : Nat) (h : d + L ≤ A.length) :
    ((A ++ B).drop d).take L = (A.drop d).take L := by
  rw [List.drop_append_eq_append_drop, List.take_append_eq_append_take]
  have h1 : B.drop (d - A.length) = B.drop 0 := by congr 1; omega
  have h2 : L - (A.drop d).length = 0 := by simp; omega
  rw [h2]
  simp

theorem slice_suffix_shift (A B : Str) (d : Nat) (h : A.length ≤ d) :
    (A ++ B).drop d = B.drop (d - A.length) := by
  rw [List.drop_append_eq_append_drop, List.drop_eq_nil_of_le h]
  simp

/-! ## Consequences of `SpanInv` -/

theorem spanInv_lt {full : Str} {s : Span} (h : SpanInv full s) :
    s.start < s.end_ := by
  have h1 := h.1
  have h2 : 0 < s.text.length := List.length_pos.mpr h.2.1
  omega

theorem spanInv_slice_left {full : Str} {s : Span} (h : SpanInv full s)
    (c : Nat) (hc1 : s.start ≤ c) (hc2 : c ≤ s.end_) :
    (full.drop s.start).take (c - s.start) = s.text.take (c - s.start) := by
  have hsl := h.2.2.2
  rw [← hsl, List.take_take]
  congr 1
  have := h.1
  omega

theorem spanInv_slice_suffix {full : Str} {s : Span} (h : SpanInv full s)
    (a : Nat) (ha : s.start ≤ a) :
    (full.drop a).take (s.end_ - a) = s.text.drop (a - s.start) := by
  have hsl := h.2.2.2
  have h1 : full.drop a = (full.drop s.start).drop (a - s.start) := by
    rw [List.drop_drop]
    congr 1
    omega
  have h2 : s.text.drop (a - s.start) =
      ((full.drop s.start).take s.text.length).drop (a - s.start) := by
    rw [hsl]
  rw [h1, h2, List.drop_take]
  congr 1
  have := h.1
  omega


/-! ## The span invariants established by `_build_map` -/

theorem spansOfRuns_inv (pIdx : Nat) :
    ∀ (runs : List Run) (rIdx off : Nat) (s : Span),
      s ∈ (spansOfRuns pIdx runs rIdx off).1 →
      s.end_ = s.start + s.text.length ∧ s.text ≠ [] ∧ s.run.text = s.text ∧
      off ≤ s.start ∧
      s.end_ ≤ off + (spansOfRuns pIdx runs rIdx off).2.length ∧
      (((spansOfRuns pIdx runs rIdx off).2).drop (s.start - off)).take
          s.text.length = s.text
  | [], _, _, s => by
    intro h
    simp [spansOfRuns] at h
  | run :: rest, rIdx, off, s => by
    intro hs
    by_cases ht : run.text.length = 0
    · simp only [spansOfRuns, if_pos ht] at hs ⊢
      exact spansOfRuns_inv pIdx rest (rIdx + 1) off s hs
    · simp only [spansOfRuns, if_neg ht, List.mem_cons] at hs ⊢
      rcases hs with rfl | hs
      · refine ⟨rfl, ?_, rfl, Nat.le_refl _, ?_, ?_⟩
        · intro hnil
          have hrt : run.text = [] := hnil
          rw [hrt] at ht
          exact ht rfl
        · simp only [List.length_append]
          omega
        · simp only [Nat.sub_self, List.drop_zero]
          exact List.take_left _ _
      · have ih := spansOfRuns_inv pIdx rest (rIdx + 1) (off + run.text.length) s hs
        refine ⟨ih.1, ih.2.1, ih.2.2.1, by omega, ?_, ?_⟩
        · have := ih.2.2.2.2.1
          simp only [List.length_append]
          omega
        · have hlow := ih.2.2.2.1
          rw [slice_suffix_shift _ _ _ (by omega)]
          have harg : s.start - off - run.text.length =
              s.start - (off + run.text.length) := by omega
          rw [harg]
          exact ih.2.2.2.2.2

theorem buildMapAux_inv :
    ∀ (ps : Doc) (pIdx off : Nat) (s : Span),
      s ∈ (buildMapAux pIdx off ps).1 →
      s.end_ = s.start + s.text.length ∧ s.text ≠ [] ∧ s.run.text = s.text ∧
      off ≤ s.start ∧
      s.end_ ≤ off + (buildMapAux pIdx off ps).2.length ∧
      (((buildMapAux pIdx off ps).2).drop (s.start - off)).take
          s.text.length = s.text
  | [], _, _, s => by
    intro h
    simp [buildMapAux] at h
  | p :: ps, pIdx, off, s => by
    intro hs
    simp only [buildMapAux, List.mem_append] at hs ⊢
    rcases hs with hs | hs
    · have ih := spansOfRuns_inv pIdx p 0 off s hs
      have hsep : ((spansOfRuns pIdx p 0 off).2 ++ sepStr).length =
          (spansOfRuns pIdx p 0 off).2.length + 2 := by
        simp [sepStr]
      refine ⟨ih.1, ih.2.1, ih.2.2.1, ih.2.2.2.1, ?_, ?_⟩
      · have := ih.2.2.2.2.1
        simp only [List.length_append]
        have h2 : sepStr.length = 2 := rfl
        omega
      · have hub := ih.2.2.2.2.1
        have hlow := ih.2.2.2.1
        have heq := ih.1
        rw [slice_prefix_extend _ _ _ _ (by omega),
          slice_prefix_extend _ _ _ _ (by omega)]
        exact ih.2.2.2.2.2
    · have ih := buildMapAux_inv ps (pIdx + 1)
        (off + (spansOfRuns pIdx p 0 off).2.length + 2) s hs
      have hsep : ((spansOfRuns pIdx p 0 off).2 ++ sepStr).length =
          (spansOfRuns pIdx p 0 off).2.length + 2 := by
        simp [sepStr]
      have hlow := ih.2.2.2.1
      refine ⟨ih.1, ih.2.1, ih.2.2.1, by omega, ?_, ?_⟩
      · have := ih.2.2.2.2.1
        simp only [List.length_append]
        have h2 : sepStr.length = 2 := rfl
        omega
      · have hshift : (((spansOfRuns pIdx p 0 off).2 ++ sepStr ++
            (buildMapAux (pIdx + 1)
              (off + (spansOfRuns pIdx p 0 off).2.length + 2) ps).2).drop
              (s.start - off)) =
            ((buildMapAux (pIdx + 1)
              (off + (spansOfRuns pIdx p 0 off).2.length + 2) ps).2).drop
              (s.start - (off + (spansOfRuns pIdx p 0 off).2.length + 2)) := by
          rw [slice_suffix_shift _ _ _ (by omega)]
          congr 1
          omega
        rw [hshift]
        exact ih.2.2.2.2.2

theorem buildMap_inv (doc : Doc) (s : Span) (hs : s ∈ (buildMap doc).1) :
    SpanInv (buildMap doc).2 s := by
  have ih := buildMapAux_inv doc 0 0 s hs
  refine ⟨ih.1, ih.2.1, ih.2.2.1, ?_⟩
  have := ih.2.2.2.2.2
  simpa using this

theorem spansOfRuns_pairwise (pIdx : Nat) :
    ∀ (runs : List Run) (rIdx off : Nat),
      List.Pairwise spanLe (spansOfRuns pIdx runs rIdx off).1
  | [], _, _ => by simp [spansOfRuns]
  | run :: rest, rIdx, off => by
    by_cases ht : run.text.length = 0
    · simp only [spansOfRuns, if_pos ht]
      exact spansOfRuns_pairwise pIdx rest (rIdx + 1) off
    · simp only [spansOfRuns, if_neg ht]
      rw [List.pairwise_cons]
      refine ⟨?_, spansOfRuns_pairwise pIdx rest (rIdx + 1) (off + run.text.length)⟩
      intro s hs
      have hlow := (spansOfRuns_inv pIdx rest (rIdx + 1)
        (off + run.text.length) s hs).2.2.2.1
      show off + run.text.length ≤ s.start
      omega

theorem buildMapAux_pairwise :
    ∀ (ps : Doc) (pIdx off : Nat),
      List.Pairwise spanLe (buildMapAux pIdx off ps).1
  | [], _, _ => by simp [buildMapAux]
  | p :: ps, pIdx, off => by
    simp only [buildMapAux]
    rw [List.pairwise_append]
    refine ⟨spansOfRuns_pairwise pIdx p 0 off,
      buildMapAux_pairwise ps (pIdx + 1) _, ?_⟩
    intro u hu v hv
    have hu2 := (spansOfRuns_inv pIdx p 0 off u hu).2.2.2.2.1
    have hv2 := (buildMapAux_inv ps (pIdx + 1)
      (off + (spansOfRuns pIdx p 0 off).2.length + 2) v hv).2.2.2.1
    show u.end_ ≤ v.start
    omega

theorem buildMap_pairwise (doc : Doc) :
    List.Pairwise spanLe (buildMap doc).1 :=
  buildMapAux_pairwise doc 0 0

/-! ## Coverage forces the affected spans to tile the match interval -/

theorem overlapB_iff (a b : Nat) (s : Span) :
    overlapB a b s = true ↔ a < s.end_ ∧ s.start < b := by
  simp [overlapB]

theorem tiles_filter (a₀ b : Nat) :
    ∀ (S : List Span) (a : Nat),
      (∀ s ∈ S, s.start < s.end_) →
      List.Pairwise spanLe S →
      a₀ ≤ a → a < b →
      ((∀ s ∈ S, a ≤ s.start) ∨ a = a₀) →
      (∀ i, a ≤ i → i < b → ∃ s ∈ S, inSpan s i) →
      Tiles b a (S.filter (overlapB a₀ b))
  | [], a, _, _, _, hab, _, hcov => by
    exact absurd (hcov a (Nat.le_refl a) hab) (by simp)
  | s :: rest, a, hlt, hpw, ha0, hab, hdisj, hcov => by
    have hpw' := List.pairwise_cons.mp hpw
    by_cases ho : overlapB a₀ b s = true
    · rw [List.filter_cons_of_pos ho]
      have hov := (overlapB_iff a₀ b s).mp ho
      -- the head span contains `a`
      have hsa : s.start ≤ a ∧ a < s.end_ := by
        obtain ⟨z, hz, hzi⟩ := hcov a (Nat.le_refl a) hab
        rcases List.mem_cons.mp hz with rfl | hz
        · exact ⟨hzi.1, hzi.2⟩
        · exfalso
          have hle : s.end_ ≤ z.start := hpw'.1 z hz
          have hza := hzi.1
          rcases hdisj with hdisj | rfl
          · have := hdisj s (List.mem_cons_self s rest)
            have := hlt s (List.mem_cons_self s rest)
            omega
          · omega
      by_cases hb : b ≤ s.end_
      · have hfr : rest.filter (overlapB a₀ b) = [] := by
          rw [List.filter_eq_nil_iff]
          intro x hx
          have hxs : s.end_ ≤ x.start := hpw'.1 x hx
          rw [overlapB_iff]
          omega
        rw [hfr]
        exact ⟨hsa.1, hsa.2, fun _ => hb, fun hc => absurd rfl hc, hb⟩
      · have hT : Tiles b s.end_ (rest.filter (overlapB a₀ b)) := by
          apply tiles_filter a₀ b rest s.end_
          · intro x hx
            exact hlt x (List.mem_cons_of_mem s hx)
          · exact hpw'.2
          · omega
          · omega
          · left
            intro x hx
            exact hpw'.1 x hx
          · intro i hi hib
            obtain ⟨z, hz, hzi⟩ := hcov i (by omega) hib
            rcases List.mem_cons.mp hz with rfl | hz
            · exfalso
              have := hzi.2
              omega
            · exact ⟨z, hz, hzi⟩
        refine ⟨hsa.1, hsa.2, ?_, fun _ => by omega, hT⟩
        intro hfr
        rw [hfr] at hT
        exact hT
    · rw [List.filter_cons_of_neg ho]
      apply tiles_filter a₀ b rest a
      · intro x hx
        exact hlt x (List.mem_cons_of_mem s hx)
      · exact hpw'.2
      · exact ha0
      · exact hab
      · rcases hdisj with hdisj | rfl
        · left
          intro x hx
          exact hdisj x (List.mem_cons_of_mem s hx)
        · right
          rfl
      · intro i hi hib
        obtain ⟨z, hz, hzi⟩ := hcov i hi hib
        rcases List.mem_cons.mp hz with rfl | hz
        · exfalso
          rw [overlapB_iff] at ho
          push_neg at ho
          rcases Nat.lt_or_ge z.end_ (a₀ + 1) with hend | hend
          · have := hzi.2
            omega
          · have := ho (by omega)
            have := hzi.1
            omega
        · exact ⟨z, hz, hzi⟩

/-! ## Tiling blocks concatenate to the matched slice -/

theorem tiles_nil_iff (b a : Nat) : Tiles b a [] ↔ b ≤ a := Iff.rfl

theorem tiles_cons_iff (b a : Nat) (s : Span) (rest : List Span) :
    Tiles b a (s :: rest) ↔
      s.start ≤ a ∧ a < s.end_ ∧ (rest = [] → b ≤ s.end_) ∧
        (rest ≠ [] → s.end_ ≤ b) ∧ Tiles b s.end_ rest := Iff.rfl

theorem tiles_last_le (b : Nat) :
    ∀ (l : List Span) (a : Nat) (hne : l ≠ []),
      Tiles b a l → b ≤ (l.getLast hne).end_
  | [s], a, _, htl => ((tiles_cons_iff b a s []).mp htl).2.2.1 rfl
  | s :: r :: t, a, _, htl => by
    have h5 := ((tiles_cons_iff b a s (r :: t)).mp htl).2.2.2.2
    have ih := tiles_last_le b (r :: t) s.end_ (by simp) h5
    rwa [List.getLast_cons (by simp : (r :: t) ≠ [])]

theorem piecesTexts_eq (full : Str) (b : Nat) :
    ∀ (l : List Span) (a : Nat) (hne : l ≠ []),
      (∀ s ∈ l, SpanInv full s) →
      List.Pairwise spanLe l →
      Tiles b a l →
      (l.head hne).start = a →
      piecesTexts b l = (full.drop a).take (b - a)
  | [], _, hne, _, _, _, _ => absurd rfl hne
  | [s], a, _, hinv, _, htl, hhead => by
    obtain ⟨h1, h2, h3, _, _⟩ := (tiles_cons_iff b a s []).mp htl
    have hb := h3 rfl
    have hi := hinv s (by simp)
    have hstart : s.start = a := hhead
    show s.text.take (b - s.start) = (full.drop a).take (b - a)
    rw [← hstart]
    by_cases hba : s.start ≤ b
    · exact (spanInv_slice_left hi b hba hb).symm
    · have h0 : b - s.start = 0 := by omega
      rw [h0]
      simp
  | s :: r :: t, a, _, hinv, hpw, htl, hhead => by
    obtain ⟨h1, h2, h3, h4, h5⟩ := (tiles_cons_iff b a s (r :: t)).mp htl
    have hm : s.end_ ≤ b := h4 (by simp)
    have hstart : s.start = a := hhead
    have hi := hinv s (by simp)
    have hpw' := List.pairwise_cons.mp hpw
    have hr : r.start = s.end_ := by
      have hle : s.end_ ≤ r.start := hpw'.1 r (by simp)
      have hub := ((tiles_cons_iff b s.end_ r t).mp h5).1
      omega
    have hfirst : (full.drop a).take (s.end_ - a) = s.text := by
      rw [← hstart, spanInv_slice_left hi s.end_
        (Nat.le_of_lt (spanInv_lt hi)) (Nat.le_refl _)]
      have hlen : s.end_ - s.start = s.text.length := by
        have := hi.1
        omega
      rw [hlen, List.take_length]
    have hrest : piecesTexts b (r :: t) = (full.drop s.end_).take (b - s.end_) :=
      piecesTexts_eq full b (r :: t) s.end_ (by simp)
        (fun x hx => hinv x (List.mem_cons_of_mem s hx)) hpw'.2 h5 hr
    show s.text ++ piecesTexts b (r :: t) = (full.drop a).take (b - a)
    rw [slice_append full a s.end_ b (by omega) hm, hfirst, hrest]

/-! ## The run values returned by `resolveAffected` -/

theorem runsText_singleton (r : Run) : runsText [r] = r.text := by
  simp [runsText]

theorem runsText_cons (r : Run) (l : List Run) :
    runsText (r :: l) = r.text ++ runsText l := by
  simp [runsText]

theorem updateNth_last_cons {α : Type} (a : α) (x : α) :
    ∀ (l : List α) (_ : l ≠ []),
      updateNth (a :: l) ((a :: l).length - 1) (fun _ => x) =
        a :: updateNth l (l.length - 1) (fun _ => x)
  | [], h => absurd rfl h
  | c :: t, _ => by
    simp only [List.length_cons, Nat.add_sub_cancel]
    rfl

theorem getLastD_map_run :
    ∀ (l : List Span) (d : Run) (hne : l ≠ []),
      (l.map Span.run).getLastD d = (l.getLast hne).run
  | [s], _, _ => rfl
  | s :: r :: t, d, _ => by
    simp only [List.map_cons] at *
    rw [List.getLastD_cons, ← List.map_cons,
      getLastD_map_run (r :: t) s.run (by simp),
      List.getLast_cons (by simp : (r :: t) ≠ [])]

theorem tail_update_runsText (b : Nat) (x : Run) :
    ∀ (l : List Span) (hne : l ≠ []),
      (∀ s ∈ l, s.run.text = s.text) →
      x.text = (l.getLast hne).text.take (b - (l.getLast hne).start) →
      runsText (updateNth (l.map Span.run) (l.length - 1) (fun _ => x)) =
        piecesTexts b l
  | [s], _, _, hx => by
    show runsText [x] = s.text.take (b - s.start)
    rw [runsText_singleton, hx]
    rfl
  | s :: r :: t, _, hrt, hx => by
    have hx' : x.text = ((r :: t).getLast (by simp)).text.take
        (b - ((r :: t).getLast (by simp)).start) := by
      rw [hx, List.getLast_cons (by simp : (r :: t) ≠ [])]
    have ih := tail_update_runsText b x (r :: t) (by simp)
      (fun z hz => hrt z (List.mem_cons_of_mem s hz)) hx'
    show runsText (updateNth (s.run :: (r :: t).map Span.run)
        ((s :: r :: t).length - 1) (fun _ => x)) = piecesTexts b (s :: r :: t)
    have hidx : (s :: r :: t).length - 1 = t.length + 1 := by simp
    rw [hidx, updateNth_cons_succ, runsText_cons, hrt s (by simp)]
    have hidx2 : t.length = (r :: t).length - 1 := by simp
    rw [hidx2, ih]
    rfl

theorem runsText_map_pieces (b : Nat) :
    ∀ (l : List Span) (hne : l ≠ []),
      (∀ s ∈ l, s.run.text = s.text ∧ s.end_ = s.start + s.text.length) →
      b = (l.getLast hne).end_ →
      runsText (l.map Span.run) = piecesTexts b l
  | [s], _, hinv, hb => by
    show runsText [s.run] = s.text.take (b - s.start)
    rw [runsText_singleton, (hinv s (by simp)).1]
    have hbs : b = s.end_ := hb
    have : b - s.start = s.text.length := by
      have := (hinv s (by simp)).2
      omega
    rw [this, List.take_length]
  | s :: r :: t, _, hinv, hb => by
    have hb' : b = ((r :: t).getLast (by simp)).end_ := by
      rw [hb, List.getLast_cons (by simp : (r :: t) ≠ [])]
    have ih := runsText_map_pieces b (r :: t) (by simp)
      (fun z hz => hinv z (List.mem_cons_of_mem s hz)) hb'
    show runsText (s.run :: (r :: t).map Span.run) = piecesTexts b (s :: r :: t)
    rw [runsText_cons, (hinv s (by simp)).1, ih]
    rfl

theorem getLastD_singleton {α : Type} (x d : α) : ([x].getLastD d) = x := rfl

theorem resolveAffected_runsText_single (full : Str) (doc : Doc) (a b : Nat) (first : Span)
    (hfi : SpanInv full first)
    (h1 : first.start ≤ a) (h2 : a < first.end_) (hb : b ≤ first.end_)
    (hab : a < b) :
    runsText (resolveAffected doc a b first []).2 = (full.drop a).take (b - a) := by
  have hrt : first.run.text = first.text := hfi.2.2.1
  have hee : first.end_ = first.start + first.text.length := hfi.1
  simp only [resolveAffected, List.getLast_singleton, List.map_cons, List.map_nil,
    updateNth_cons_zero]
  by_cases htrim : b < first.end_
  · rw [if_pos htrim]
    by_cases hls : 0 < a - first.start
    · simp only [if_pos hls, getLastD_singleton, List.length_singleton, Nat.sub_self,
        updateNth_cons_zero, runsText_singleton]
      rw [splitRunAtIndex_fst_text]
      simp only [splitRunAtIndex_snd_text, hrt, List.length_drop]
      have hsp : first.text.length - (a - first.start) - (first.end_ - b) = b - a := by
        omega
      rw [hsp]
      rw [show (full.drop a).take (b - a) =
          ((full.drop a).take (first.end_ - a)).take (b - a) from by
        rw [List.take_take]
        congr 1
        omega]
      rw [spanInv_slice_suffix hfi a h1]
    · simp only [if_neg hls, getLastD_singleton, List.length_singleton, Nat.sub_self,
        updateNth_cons_zero, runsText_singleton]
      rw [splitRunAtIndex_fst_text]
      simp only [hrt]
      have ha : a = first.start := by omega
      have hsp : first.text.length - (first.end_ - b) = b - first.start := by omega
      rw [hsp]
      subst ha
      exact (spanInv_slice_left hfi b (by omega) hb).symm
  · rw [if_neg htrim]
    by_cases hls : 0 < a - first.start
    · simp only [if_pos hls, runsText_singleton]
      rw [splitRunAtIndex_snd_text]
      simp only [hrt]
      have hba : b - a = first.end_ - a := by omega
      rw [hba, spanInv_slice_suffix hfi a h1]
    · simp only [if_neg hls, runsText_singleton]
      rw [hrt]
      have ha : a = first.start := by omega
      subst ha
      have hfull : b - first.start = first.text.length := by omega
      rw [hfull]
      exact (hfi.2.2.2).symm

theorem resolveAffected_runsText_multi (full : Str) (doc : Doc) (a b : Nat)
    (first r2 : Span) (t2 : List Span)
    (hinv : ∀ s ∈ first :: r2 :: t2, SpanInv full s)
    (hpw : List.Pairwise spanLe (first :: r2 :: t2))
    (htl : Tiles b a (first :: r2 :: t2))
    (_hab : a < b)
    (hlb : ((r2 :: t2).getLast (by simp)).start < b) :
    runsText (resolveAffected doc a b first (r2 :: t2)).2 =
      (full.drop a).take (b - a) := by
  have hne2 : (r2 :: t2) ≠ [] := by simp
  obtain ⟨h1, h2, h3, h4, h5⟩ := (tiles_cons_iff b a first (r2 :: t2)).mp htl
  have h4' : first.end_ ≤ b := h4 (by simp)
  have hfi := hinv first (by simp)
  have hrt : first.run.text = first.text := hfi.2.2.1
  have hpw' := List.pairwise_cons.mp hpw
  have hble : b ≤ ((r2 :: t2).getLast hne2).end_ :=
    tiles_last_le b (r2 :: t2) first.end_ hne2 h5
  have hLmem : (r2 :: t2).getLast hne2 ∈ r2 :: t2 := List.getLast_mem hne2
  have hLi := hinv _ (List.mem_cons_of_mem first hLmem)
  have hr2 : r2.start = first.end_ := by
    have hle : first.end_ ≤ r2.start := hpw'.1 r2 (by simp)
    have hub := ((tiles_cons_iff b first.end_ r2 t2).mp h5).1
    omega
  have hhead : (full.drop a).take (first.end_ - a) =
      first.text.drop (a - first.start) := spanInv_slice_suffix hfi a h1
  have hpieces : piecesTexts b (r2 :: t2) =
      (full.drop first.end_).take (b - first.end_) :=
    piecesTexts_eq full b (r2 :: t2) first.end_ hne2
      (fun x hx => hinv x (List.mem_cons_of_mem first hx)) hpw'.2 h5 hr2
  have hsliceab : (full.drop a).take (b - a) =
      first.text.drop (a - first.start) ++ piecesTexts b (r2 :: t2) := by
    rw [slice_append full a first.end_ b (by omega) h4', hhead, hpieces]
  simp only [resolveAffected, List.map_cons]
  rw [List.getLast_cons hne2]
  obtain ⟨L, hL⟩ : ∃ x, (r2 :: t2).getLast hne2 = x := ⟨_, rfl⟩
  rw [hL]
  rw [hL] at hble hlb hLi
  have hLrt : L.run.text = L.text := hLi.2.2.1
  have hLee : L.end_ = L.start + L.text.length := hLi.1
  have hruns : ∀ s ∈ r2 :: t2, s.run.text = s.text :=
    fun z hz => (hinv z (List.mem_cons_of_mem first hz)).2.2.1
  have hsp : L.text.length - (L.end_ - b) = b - L.start := by omega
  by_cases htrim : b < L.end_
  · rw [if_pos htrim]
    have hxeq : ((splitRunAtIndex L.run (b - L.start)).1).text =
        ((r2 :: t2).getLast hne2).text.take (b - ((r2 :: t2).getLast hne2).start) := by
      rw [splitRunAtIndex_fst_text, hLrt, hL]
    have htail := tail_update_runsText b ((splitRunAtIndex L.run (b - L.start)).1)
      (r2 :: t2) hne2 hruns hxeq
    by_cases hls : 0 < a - first.start
    · simp only [if_pos hls, updateNth_cons_zero]
      have hgl : ((splitRunAtIndex first.run (a - first.start)).2 ::
          r2.run :: List.map Span.run t2).getLastD default = L.run := by
        rw [List.getLastD_cons,
          show r2.run :: List.map Span.run t2 = (r2 :: t2).map Span.run from rfl,
          getLastD_map_run (r2 :: t2) _ hne2, hL]
      simp only [hgl, hLrt, hsp]
      rw [updateNth_last_cons _ _ _
        (by simp : (r2.run :: List.map Span.run t2) ≠ []), runsText_cons]
      simp only [List.map_cons, List.length_cons, List.length_map,
        Nat.add_sub_cancel] at htail ⊢
      rw [htail, hsliceab, splitRunAtIndex_snd_text, hrt]
    · simp only [if_neg hls]
      have hgl : (first.run :: r2.run :: List.map Span.run t2).getLastD default =
          L.run := by
        rw [List.getLastD_cons,
          show r2.run :: List.map Span.run t2 = (r2 :: t2).map Span.run from rfl,
          getLastD_map_run (r2 :: t2) _ hne2, hL]
      simp only [hgl, hLrt, hsp]
      rw [updateNth_last_cons _ _ _
        (by simp : (r2.run :: List.map Span.run t2) ≠ []), runsText_cons]
      simp only [List.map_cons, List.length_cons, List.length_map,
        Nat.add_sub_cancel] at htail ⊢
      rw [htail, hsliceab, hrt,
        show a - first.start = 0 from by omega, List.drop_zero]
  · rw [if_neg htrim]
    have hbeq : b = ((r2 :: t2).getLast hne2).end_ := by
      rw [hL]
      omega
    have hmapp := runsText_map_pieces b (r2 :: t2) hne2
      (fun z hz => ⟨(hinv z (List.mem_cons_of_mem first hz)).2.2.1,
        (hinv z (List.mem_cons_of_mem first hz)).1⟩) hbeq
    simp only [List.map_cons] at hmapp
    by_cases hls : 0 < a - first.start
    · simp only [if_pos hls, updateNth_cons_zero]
      rw [runsText_cons, hmapp, hsliceab, splitRunAtIndex_snd_text, hrt]
    · simp only [if_neg hls]
      rw [runsText_cons, hmapp, hsliceab, hrt,
        show a - first.start = 0 from by omega, List.drop_zero]

/-! ## Claim C3: assembly -/

theorem findTargetRuns_eq_resolve (doc : Doc) (target : Str) (a : Nat)
    (first : Span) (rest : List Span)
    (hf : strFind (buildMap doc).2 target = some a)
    (haff : affectedSpans (buildMap doc).1 a (a + target.length) = first :: rest) :
    findTargetRuns doc target = resolveAffected doc a (a + target.length) first rest := by
  simp only [findTargetRuns]
  cases hf2 : strFind (buildMap doc).2 target with
  | none =>
    rw [hf2] at hf
    cases hf
  | some a2 =>
    rw [hf2] at hf
    injection hf with ha
    subst ha
    change (match affectedSpans (buildMap doc).1 a2 (a2 + target.length) with
        | [] => (doc, ([] : List Run))
        | f :: r => resolveAffected doc a2 (a2 + target.length) f r) = _
    rw [haff]

/-- Claim C3 as amended: for a non-empty target whose first occurrence in
the flat view is entirely covered by run spans (it does not straddle a
paragraph separator), `find_target_runs` returns a non-empty sequence of
runs — one per overlapping span, the leftmost/rightmost split as needed —
whose concatenated texts equal the target string. -/
theorem find_target_runs_covered (doc : Doc) (target : Str) (a : Nat)
    (hne : target ≠ [])
    (hf : strFind (buildMap doc).2 target = some a)
    (hcov : Covered (buildMap doc).1 a (a + target.length)) :
    (findTargetRuns doc target).2 ≠ [] ∧
    runsText (findTargetRuns doc target).2 = target ∧
    (findTargetRuns doc target).2.length =
      (affectedSpans (buildMap doc).1 a (a + target.length)).length := by
  have hab : a < a + target.length := by
    have : 0 < target.length := List.length_pos.mpr hne
    omega
  have hcov' : ∀ i, a ≤ i → i < a + target.length →
      ∃ s ∈ (buildMap doc).1, inSpan s i := by
    intro i hai hib
    rcases hcov i hib with h | h
    · omega
    · exact h
  have hlt : ∀ s ∈ (buildMap doc).1, s.start < s.end_ :=
    fun s hs => spanInv_lt (buildMap_inv doc s hs)
  have hT : Tiles (a + target.length) a
      (affectedSpans (buildMap doc).1 a (a + target.length)) :=
    tiles_filter a (a + target.length) (buildMap doc).1 a hlt
      (buildMap_pairwise doc) (Nat.le_refl a) hab (Or.inr rfl) hcov'
  cases haff : affectedSpans (buildMap doc).1 a (a + target.length) with
  | nil =>
    rw [haff] at hT
    rw [tiles_nil_iff] at hT
    omega
  | cons first rest =>
    have heq := findTargetRuns_eq_resolve doc target a first rest hf haff
    rw [heq]
    have hinv : ∀ s ∈ first :: rest, SpanInv (buildMap doc).2 s := by
      intro s hs
      apply buildMap_inv
      exact List.mem_of_mem_filter (p := overlapB a (a + target.length))
        (by rw [← affectedSpans, haff]; exact hs)
    have hpwa : List.Pairwise spanLe (first :: rest) := by
      rw [← haff]
      exact List.Pairwise.sublist (List.filter_sublist _) (buildMap_pairwise doc)
    have hTc : Tiles (a + target.length) a (first :: rest) := by
      rw [← haff]
      exact hT
    have hlb : ((first :: rest).getLast (List.cons_ne_nil _ _)).start <
        a + target.length := by
      have hm : (first :: rest).getLast (List.cons_ne_nil _ _) ∈ first :: rest :=
        List.getLast_mem _
      have hmf : (first :: rest).getLast (List.cons_ne_nil _ _) ∈
          affectedSpans (buildMap doc).1 a (a + target.length) := by
        rw [haff]
        exact hm
      have ho := List.of_mem_filter hmf
      exact ((overlapB_iff _ _ _).mp ho).2
    refine ⟨?_, ?_, ?_⟩
    · have hlen := resolveAffected_snd_length doc a (a + target.length) first rest
      intro hnil
      rw [hnil] at hlen
      simp at hlen
    · have htarget : (((buildMap doc).2).drop a).take target.length = target :=
        strFind_slice _ _ _ hf
      have hba : a + target.length - a = target.length := by omega
      cases rest with
      | nil =>
        obtain ⟨hh1, hh2, hh3, _, _⟩ :=
          (tiles_cons_iff (a + target.length) a first []).mp hTc
        have hval := resolveAffected_runsText_single (buildMap doc).2 doc a
          (a + target.length) first (hinv first (by simp)) hh1 hh2 (hh3 rfl) hab
        rw [hval, hba, htarget]
      | cons r2 t2 =>
        have hlb2 : ((r2 :: t2).getLast (by simp)).start < a + target.length := by
          rw [List.getLast_cons (by simp : (r2 :: t2) ≠ [])] at hlb
          exact hlb
        have hval := resolveAffected_runsText_multi (buildMap doc).2 doc a
          (a + target.length) first r2 t2 hinv hpwa hTc hab hlb2
        rw [hval, hba, htarget]
    · rw [resolveAffected_snd_length]
      simp

/-- Witness for `find_target_runs_covered`: the target `"b"` in the
single-run document `"abc"`, matched at offset 1 with full span coverage. -/
theorem find_target_runs_covered_witness :
    (findTargetRuns docABC ['b']).2 ≠ [] ∧
    runsText (findTargetRuns docABC ['b']).2 = ['b'] ∧
    (findTargetRuns docABC ['b']).2.length =
      (affectedSpans (buildMap docABC).1 1 (1 + (['b'] : Str).length)).length :=
  find_target_runs_covered docABC ['b'] 1 (by decide) (by decide) (by decide)

/-- Counterexample to claim C3 as stated: on `docAB` the straddling target
`"a\n\nb"` makes `find_target_runs` return a *non-empty* run sequence whose
concatenated text `"ab"` is not the target string. -/
theorem concat_mismatch_on_straddle_cx :
    (findTargetRuns docAB targetAB).2 ≠ [] ∧
    runsText (findTargetRuns docAB targetAB).2 = ['a', 'b'] ∧
    runsText (findTargetRuns docAB targetAB).2 ≠ targetAB := by decide
